import Mathlib

/-!
Shallow embedding of `split_text` / `split_text_with_word_count` from
`src/cpp_extensions/text_chunking/text_chunker.cpp`, together with proofs
about the chunking pipeline: the separator cascade splitter, the greedy
chunk merger, the fixed-width fallback splitter and the word-length
estimator.

Strings are modelled as `List Char`; C++ `size_t` values are `Nat` with
explicit reduction modulo `2 ^ 64` where the source mixes `int` and
`size_t` (casts and wrap-around); C++ `int` parameters are `Int`.  The
fallback `for` loop of the source can fail to terminate (its stride
`chunk_size - chunk_overlap` is never validated), so it is modelled with
an explicit fuel parameter returning `Option`: `none` means the loop did
not finish within the fuel bound; `splitText` passes fuel
`text.length + 1`, which is proved sufficient whenever the stride is
positive.
-/

namespace TextChunker

/-- Value of `2 ^ 64`, the modulus of `size_t` arithmetic. -/
def U64 : Nat := 18446744073709551616

/-- Conversion `static_cast<size_t>(n)` of a C++ `int` value `n`. -/
def toSizeT (n : Int) : Nat := (n % (U64 : Int)).toNat

/-- Tests whether the first list is a prefix of the second
(the elementary comparison behind `std::string::find`). -/
def startsWith : List Char → List Char → Bool
  | [], _ => true
  | _ :: _, [] => false
  | a :: as, b :: bs => a == b && startsWith as bs

/-- Index of the first occurrence of `sep` in the text, as in
`text.find(sep, pos)` (relative to the start of the list);
`none` corresponds to `std::string::npos`. -/
def findSub (sep : List Char) : List Char → Option Nat
  | [] => if sep.isEmpty then some 0 else none
  | c :: rest =>
    if startsWith sep (c :: rest) then some 0
    else (findSub sep rest).map (· + 1)

/-- Fuel-indexed version of the `while ((next_pos = text.find(...)) != npos)`
splitting loop (lines 44-48 and 98-102 of the source): returns the pieces
pushed onto `splits` and the remaining suffix after the last consumed
separator.  Each iteration consumes at least `sep.length ≥ 1` characters,
so fuel `text.length` is sufficient for a non-empty separator. -/
def splitAuxF (sep : List Char) : Nat → List Char → List (List Char) × List Char
  | 0, text => ([], text)
  | f + 1, text =>
    match findSub sep text with
    | none => ([], text)
    | some p =>
      let r := splitAuxF sep f (text.drop (p + sep.length))
      (text.take p :: r.1, r.2)

/-- The `splits` vector built by one separator tier: the pieces cut before
each separator occurrence, followed by the trailing remainder, which is
appended only when it is non-empty (`start_pos < text.length()`); the
result is `[]` exactly when the separator never occurs
(`has_paragraph_splits` / `has_newline_splits` is false). -/
def cppSplits (sep text : List Char) : List (List Char) :=
  let a := splitAuxF sep text.length text
  if a.1 = [] then [] else a.1 ++ (if a.2 = [] then [] else [a.2])

/-- One iteration of the greedy merge loop (lines 60-79 / 113-130):
state is `(chunks, current_chunk)`; `s` is the incoming split. -/
def mergeStep (sep : List Char) (chunk_size chunk_overlap : Int)
    (st : List (List Char) × List Char) (s : List Char) :
    List (List Char) × List Char :=
  if st.2 ≠ [] ∧ toSizeT chunk_size < st.2.length + s.length + sep.length then
    -- emit current_chunk, then seed the next buffer with the overlap carry
    let carry :=
      if 0 < chunk_overlap ∧ toSizeT chunk_overlap < st.2.length then
        st.2.drop (st.2.length - toSizeT chunk_overlap)
      else []
    if carry = [] then (st.1 ++ [st.2], s) else (st.1 ++ [st.2], carry ++ sep ++ s)
  else if st.2 = [] then (st.1, s) else (st.1, st.2 ++ sep ++ s)

/-- The full greedy merge of one tier: fold the merge step over the splits,
then push the final non-empty buffer (lines 56-89 / 109-139). -/
def mergeChunks (sep : List Char) (chunk_size chunk_overlap : Int)
    (splits : List (List Char)) : List (List Char) :=
  let st := splits.foldl (mergeStep sep chunk_size chunk_overlap) ([], [])
  if st.2 = [] then st.1 else st.1 ++ [st.2]

/-- Fuel-indexed model of the fixed-width fallback loop (lines 145-148):
`for (size_t i = 0; i < text.length(); i += chunk_size - chunk_overlap)`.
`csize` and `stride` are the `size_t` images of `chunk_size` and
`chunk_size - chunk_overlap`; index arithmetic wraps modulo `2 ^ 64`.
`none` means the loop did not finish within the given fuel (in particular
it never finishes when the stride is `0`). -/
def fallbackLoop (text : List Char) (csize stride : Nat) :
    Nat → Nat → Option (List (List Char))
  | 0, i => if i < text.length then none else some []
  | f + 1, i =>
    if i < text.length then
      let e := min ((i + csize) % U64) text.length
      let piece := if i ≤ e then (text.drop i).take (e - i) else text.drop i
      (fallbackLoop text csize stride f ((i + stride) % U64)).map (piece :: ·)
    else some []

/-- Chunks produced by one separator tier: empty when the separator never
occurs in the text (the merge block is guarded by `has_*_splits`). -/
def tierChunks (sep : List Char) (chunk_size chunk_overlap : Int)
    (text : List Char) : List (List Char) :=
  if cppSplits sep text = [] then []
  else mergeChunks sep chunk_size chunk_overlap (cppSplits sep text)

/-- The function `split_text` (lines 22-151): short-circuit for small text,
paragraph tier, line tier, then the fixed-width fallback.  The fallback is
run with fuel `text.length + 1`, sufficient whenever its stride is
positive; `none` reports a non-terminating fallback loop. -/
def splitText (text : List Char) (chunk_size chunk_overlap : Int) :
    Option (List (List Char)) :=
  if text.length ≤ toSizeT chunk_size then some [text]
  else if tierChunks ['\n', '\n'] chunk_size chunk_overlap text ≠ [] then
    some (tierChunks ['\n', '\n'] chunk_size chunk_overlap text)
  else if tierChunks ['\n'] chunk_size chunk_overlap text ≠ [] then
    some (tierChunks ['\n'] chunk_size chunk_overlap text)
  else
    fallbackLoop text (toSizeT chunk_size) (toSizeT (chunk_size - chunk_overlap))
      (text.length + 1) 0

/-- The whitespace set of C `isspace` in the default locale. -/
def isspaceChar (c : Char) : Bool :=
  c == ' ' || c == '\t' || c == '\n' || c == '\x0b' || c == '\x0c' || c == '\r'

/-- The word-counting loop of `split_text_with_word_count` (lines 162-172):
counts transitions from whitespace into a word; the boolean is `in_word`. -/
def countWordsAux : Bool → List Char → Nat
  | _, [] => 0
  | inWord, c :: rest =>
    if isspaceChar c then countWordsAux false rest
    else if inWord then countWordsAux true rest
    else 1 + countWordsAux true rest

/-- Average word length estimated from the 500-character sample prefix
(lines 158-175): `sample_size / word_count + 1`, or the default `6`
when the sample contains no words. -/
def avgWordLength (text : List Char) : Int :=
  let sample := text.take 500
  let wc := countWordsAux false sample
  if 0 < wc then ((sample.length / wc : Nat) : Int) + 1 else 6

/-- The function `split_text_with_word_count` (lines 157-182): converts the
word-based parameters to character counts and delegates to `split_text`. -/
def splitTextWithWordCount (text : List Char) (chunk_size_words chunk_overlap_words : Int) :
    Option (List (List Char)) :=
  splitText text (chunk_size_words * avgWordLength text)
    (chunk_overlap_words * avgWordLength text)

/-- Joining a segment list by inserting the separator between consecutive
segments (the reconstruction reading of the spec's Segment data model). -/
def joinSep (sep : List Char) : List (List Char) → List Char
  | [] => []
  | [s] => s
  | s :: rest => s ++ sep ++ joinSep sep rest

/-- Maximum length of the segments of a list. -/
def maxLen (l : List (List Char)) : Nat :=
  l.foldr (fun s m => max s.length m) 0

/-! ### Basic facts about the casts -/

lemma toSizeT_eq_toNat {n : Int} (h0 : 0 ≤ n) (h1 : n < (U64 : Int)) :
    toSizeT n = n.toNat := by
  unfold toSizeT
  rw [Int.emod_eq_of_lt h0 h1]

/-! ### The separator cascade splitter -/

lemma startsWith_append : ∀ (s t : List Char), startsWith s t = true →
    s ++ t.drop s.length = t
  | [], t, _ => by simp
  | a :: as, [], h => by simp [startsWith] at h
  | a :: as, b :: bs, h => by
    simp only [startsWith, Bool.and_eq_true, beq_iff_eq] at h
    obtain ⟨rfl, h2⟩ := h
    simpa using startsWith_append as bs h2

lemma findSub_le (sep : List Char) : ∀ (t : List Char) (p : Nat),
    findSub sep t = some p → p + sep.length ≤ t.length := by
  intro t
  induction t with
  | nil =>
    intro p hp
    simp only [findSub] at hp
    split at hp
    · cases hp
      simp_all [List.isEmpty_iff]
    · cases hp
  | cons c rest ih =>
    intro p hp
    simp only [findSub] at hp
    split at hp
    · cases hp
      have := startsWith_append sep (c :: rest) (by assumption)
      have hl : sep.length + (List.drop sep.length (c :: rest)).length = (c :: rest).length := by
        rw [← List.length_append, this]
      omega
    · simp only [Option.map_eq_some'] at hp
      obtain ⟨q, hq, rfl⟩ := hp
      have := ih q hq
      simp only [List.length_cons]
      omega

lemma findSub_split (sep : List Char) : ∀ (t : List Char) (p : Nat),
    findSub sep t = some p →
    t.take p ++ sep ++ t.drop (p + sep.length) = t := by
  intro t
  induction t with
  | nil =>
    intro p hp
    simp only [findSub] at hp
    split at hp
    · cases hp
      simp_all [List.isEmpty_iff]
    · cases hp
  | cons c rest ih =>
    intro p hp
    simp only [findSub] at hp
    split at hp
    · cases hp
      simpa using startsWith_append sep (c :: rest) (by assumption)
    · simp only [Option.map_eq_some'] at hp
      obtain ⟨q, hq, rfl⟩ := hp
      have hq' := ih q hq
      have harith : q + 1 + sep.length = (q + sep.length) + 1 := by omega
      simp only [List.take_succ_cons, harith, List.drop_succ_cons]
      simpa using hq'

lemma splitAuxF_join (sep : List Char) : ∀ (fuel : Nat) (t : List Char),
    ((splitAuxF sep fuel t).1.map (· ++ sep)).flatten ++ (splitAuxF sep fuel t).2 = t := by
  intro fuel
  induction fuel with
  | zero => intro t; simp [splitAuxF]
  | succ f ih =>
    intro t
    simp only [splitAuxF]
    cases h : findSub sep t with
    | none => simp
    | some p =>
      have hs := findSub_split sep t p h
      have := ih (t.drop (p + sep.length))
      simp only [List.map_cons, List.flatten_cons, List.append_assoc]
      rw [this]
      simpa [List.append_assoc] using hs

lemma joinSep_cons (sep a : List Char) (l : List (List Char)) (h : l ≠ []) :
    joinSep sep (a :: l) = a ++ sep ++ joinSep sep l := by
  cases l with
  | nil => exact absurd rfl h
  | cons b l' => rfl

lemma joinSep_append_single (sep : List Char) :
    ∀ (ps : List (List Char)) (r : List Char),
    joinSep sep (ps ++ [r]) = (ps.map (· ++ sep)).flatten ++ r := by
  intro ps
  induction ps with
  | nil => intro r; simp [joinSep]
  | cons p ps' ih =>
    intro r
    rw [List.cons_append, joinSep_cons sep p (ps' ++ [r]) (by simp), ih]
    simp [List.append_assoc]

lemma joinSep_append_sep (sep : List Char) :
    ∀ (ps : List (List Char)), ps ≠ [] →
    joinSep sep ps ++ sep = (ps.map (· ++ sep)).flatten := by
  intro ps
  induction ps with
  | nil => intro h; exact absurd rfl h
  | cons p ps' ih =>
    intro _
    cases hps' : ps' with
    | nil => simp [joinSep]
    | cons b l' =>
      rw [joinSep_cons sep p (b :: l') (by simp)]
      have h2 : joinSep sep (b :: l') ++ sep = ((b :: l').map (· ++ sep)).flatten := by
        have := ih (by simp [hps'])
        rwa [hps'] at this
      calc (p ++ sep ++ joinSep sep (b :: l')) ++ sep
          = (p ++ sep) ++ (joinSep sep (b :: l') ++ sep) := by
            simp [List.append_assoc]
        _ = (p ++ sep) ++ ((b :: l').map (· ++ sep)).flatten := by rw [h2]
        _ = ((p :: b :: l').map (· ++ sep)).flatten := by simp

lemma sep_suffix_flatten (sep : List Char) :
    ∀ (ps : List (List Char)), ps ≠ [] →
    List.IsSuffix sep ((ps.map (· ++ sep)).flatten) := by
  intro ps
  induction ps with
  | nil => intro h; exact absurd rfl h
  | cons p ps' ih =>
    intro _
    cases hps' : ps' with
    | nil =>
      simp only [List.map_cons, List.map_nil, List.flatten_cons, List.flatten_nil,
        List.append_nil]
      exact List.suffix_append p sep
    | cons b l' =>
      have h1 : List.IsSuffix sep (((b :: l').map (· ++ sep)).flatten) := by
        have := ih (by simp [hps'])
        rwa [hps'] at this
      simp only [List.map_cons, List.flatten_cons]
      exact h1.trans (List.suffix_append _ _)

lemma cppSplits_cases (sep text : List Char) :
    cppSplits sep text =
      (if (splitAuxF sep text.length text).1 = [] then []
       else (splitAuxF sep text.length text).1 ++
         (if (splitAuxF sep text.length text).2 = [] then []
          else [(splitAuxF sep text.length text).2])) := rfl

/-! ### Claim C2: segment rejoining -/

/-- C2 counterexample: for the text `"a\n\n"`, which ends with the
double line-break separator, the splitter drops the empty trailing
remainder (`start_pos < text.length()` fails), so the produced segment
sequence is `["a"]` and rejoining with the separator gives `"a"`, not the
original text. -/
theorem C2_counterexample :
    cppSplits ['\n', '\n'] ['a', '\n', '\n'] = [['a']] ∧
    joinSep ['\n', '\n'] (cppSplits ['\n', '\n'] ['a', '\n', '\n']) ≠ ['a', '\n', '\n'] := by
  decide

/-- C2 amended: whenever a separator tier applies (produces at least one
segment), rejoining the segments with the separator reconstructs the
original text exactly, or — when the text ends with the separator, whose
final occurrence is consumed and whose empty trailing remainder is
dropped — reconstructs the text with that one trailing separator removed;
in particular reconstruction is exact whenever the separator is not a
suffix of the text. -/
theorem C2_rejoin_amended (sep text : List Char) (_hsep : sep ≠ [])
    (happ : cppSplits sep text ≠ []) :
    (joinSep sep (cppSplits sep text) = text ∨
     joinSep sep (cppSplits sep text) ++ sep = text) ∧
    (¬ List.IsSuffix sep text → joinSep sep (cppSplits sep text) = text) := by
  have key := splitAuxF_join sep text.length text
  rw [cppSplits_cases] at happ ⊢
  by_cases hp : (splitAuxF sep text.length text).1 = []
  · rw [if_pos hp] at happ
    exact absurd rfl happ
  · rw [if_neg hp] at happ ⊢
    by_cases hr : (splitAuxF sep text.length text).2 = []
    · rw [if_pos hr]
      rw [hr, List.append_nil] at key
      simp only [List.append_nil]
      have hjoin : joinSep sep (splitAuxF sep text.length text).1 ++ sep = text := by
        rw [joinSep_append_sep sep _ hp]
        exact key
      refine ⟨Or.inr hjoin, ?_⟩
      intro hns
      exfalso
      exact hns (key ▸ sep_suffix_flatten sep _ hp)
    · rw [if_neg hr]
      have hjoin : joinSep sep ((splitAuxF sep text.length text).1 ++
          [(splitAuxF sep text.length text).2]) = text := by
        rw [joinSep_append_single]
        exact key
      exact ⟨Or.inl hjoin, fun _ => hjoin⟩

/-- Witness for the amended C2 at `text = "a\nb"` with the single
line-break separator. -/
theorem C2_rejoin_amended_witness :
    (joinSep ['\n'] (cppSplits ['\n'] ['a', '\n', 'b']) = ['a', '\n', 'b'] ∨
     joinSep ['\n'] (cppSplits ['\n'] ['a', '\n', 'b']) ++ ['\n'] = ['a', '\n', 'b']) ∧
    (¬ List.IsSuffix ['\n'] ['a', '\n', 'b'] →
     joinSep ['\n'] (cppSplits ['\n'] ['a', '\n', 'b']) = ['a', '\n', 'b']) :=
  C2_rejoin_amended ['\n'] ['a', '\n', 'b'] (by decide) (by decide)

/-! ### The greedy chunk merger -/

/-- Complete case analysis of one merge iteration: either the size check
fails and the incoming split is appended to the buffer (or seeds it), or
the buffer is emitted and the next buffer starts from the split, possibly
preceded by a `chunk_overlap`-sized carry and the separator. -/
lemma mergeStep_cases (sep : List Char) (cs co : Int)
    (st : List (List Char) × List Char) (s : List Char) :
    (¬(st.2 ≠ [] ∧ toSizeT cs < st.2.length + s.length + sep.length) ∧
      ((st.2 = [] ∧ mergeStep sep cs co st s = (st.1, s)) ∨
       (st.2 ≠ [] ∧ mergeStep sep cs co st s = (st.1, st.2 ++ sep ++ s)))) ∨
    ((st.2 ≠ [] ∧ toSizeT cs < st.2.length + s.length + sep.length) ∧
      (mergeStep sep cs co st s = (st.1 ++ [st.2], s) ∨
       ∃ pre, pre ≠ [] ∧ pre.length = toSizeT co ∧
         mergeStep sep cs co st s = (st.1 ++ [st.2], pre ++ sep ++ s))) := by
  by_cases h1 : st.2 ≠ [] ∧ toSizeT cs < st.2.length + s.length + sep.length
  · right
    refine ⟨h1, ?_⟩
    simp only [mergeStep]
    rw [if_pos h1]
    by_cases h2 : 0 < co ∧ toSizeT co < st.2.length
    · rw [if_pos h2]
      by_cases h3 : st.2.drop (st.2.length - toSizeT co) = []
      · rw [if_pos h3]
        left; rfl
      · rw [if_neg h3]
        right
        refine ⟨_, h3, ?_, rfl⟩
        rw [List.length_drop]
        omega
    · rw [if_neg h2]
      simp only [if_pos rfl]
      left; rfl
  · left
    refine ⟨h1, ?_⟩
    simp only [mergeStep]
    rw [if_neg h1]
    by_cases h3 : st.2 = []
    · rw [if_pos h3]
      left; exact ⟨h3, rfl⟩
    · rw [if_neg h3]
      right; exact ⟨h3, rfl⟩

lemma mergeStep_preserve (sep : List Char) (cs co : Int)
    (st : List (List Char) × List Char) (s : List Char)
    (h : st.1 ≠ [] ∨ st.2 ≠ []) :
    (mergeStep sep cs co st s).1 ≠ [] ∨ (mergeStep sep cs co st s).2 ≠ [] := by
  rcases mergeStep_cases sep cs co st s with ⟨_, ⟨h2, heq⟩ | ⟨h2, heq⟩⟩ |
      ⟨_, heq | ⟨pre, _, _, heq⟩⟩
  · rw [heq]
    left
    rcases h with hl | hr
    · exact hl
    · exact absurd h2 hr
  · rw [heq]
    right
    simp [h2]
  · rw [heq]
    left
    simp
  · rw [heq]
    left
    simp

lemma mergeStep_nonempty_seg (sep : List Char) (cs co : Int)
    (st : List (List Char) × List Char) (s : List Char) (hs : s ≠ []) :
    (mergeStep sep cs co st s).1 ≠ [] ∨ (mergeStep sep cs co st s).2 ≠ [] := by
  rcases mergeStep_cases sep cs co st s with ⟨_, ⟨_, heq⟩ | ⟨h2, heq⟩⟩ |
      ⟨_, heq | ⟨pre, _, _, heq⟩⟩
  · rw [heq]
    right
    exact hs
  · rw [heq]
    right
    simp [h2]
  · rw [heq]
    left
    simp
  · rw [heq]
    left
    simp

lemma foldl_merge_all_empty (sep : List Char) (cs co : Int) :
    ∀ (segs : List (List Char)), (∀ s ∈ segs, s = []) →
    segs.foldl (mergeStep sep cs co) ([], []) = ([], []) := by
  intro segs
  induction segs with
  | nil => intro _; rfl
  | cons a t ih =>
    intro h
    have ha : a = [] := h a (List.mem_cons_self ..)
    have hstep : mergeStep sep cs co ([], []) a = ([], []) := by
      subst ha
      simp [mergeStep]
    rw [List.foldl_cons, hstep]
    exact ih (fun s hs => h s (List.mem_cons_of_mem _ hs))

lemma foldl_merge_nonempty (sep : List Char) (cs co : Int) :
    ∀ (segs : List (List Char)) (st : List (List Char) × List Char),
    ((∃ s ∈ segs, s ≠ []) ∨ st.1 ≠ [] ∨ st.2 ≠ []) →
    (segs.foldl (mergeStep sep cs co) st).1 ≠ [] ∨
    (segs.foldl (mergeStep sep cs co) st).2 ≠ [] := by
  intro segs
  induction segs with
  | nil =>
    intro st h
    simpa using h
  | cons a t ih =>
    intro st h
    rw [List.foldl_cons]
    apply ih
    rcases h with ⟨s, hs, hne⟩ | hst
    · rcases List.mem_cons.mp hs with rfl | hmem
      · right; exact mergeStep_nonempty_seg sep cs co st s hne
      · left; exact ⟨s, hmem, hne⟩
    · right; exact mergeStep_preserve sep cs co st a hst

/-! ### Claim C5: when the merge yields no chunks -/

/-- C5 counterexample: the segment sequence `["", ""]` is non-empty (it is
exactly what the paragraph tier produces for the text `"\n\n\n\n"`), yet
the merge step emits zero chunks: the buffer never becomes non-empty, so
nothing is ever pushed. -/
theorem C5_counterexample :
    ([[], []] : List (List Char)) ≠ [] ∧
    cppSplits ['\n', '\n'] ['\n', '\n', '\n', '\n'] = [[], []] ∧
    mergeChunks ['\n', '\n'] 100 10 [[], []] = [] := by
  decide

/-- C5 amended: the greedy merge returns an empty chunk sequence exactly
when every input segment is empty (in particular, when the input segment
sequence itself is empty); whenever some segment is non-empty, at least
one chunk is emitted. -/
theorem C5_merge_empty_iff (sep : List Char) (cs co : Int)
    (segs : List (List Char)) :
    mergeChunks sep cs co segs = [] ↔ ∀ s ∈ segs, s = [] := by
  constructor
  · intro h
    by_contra hc
    push_neg at hc
    have hne := foldl_merge_nonempty sep cs co segs ([], []) (Or.inl hc)
    simp only [mergeChunks] at h
    split_ifs at h with h2
    · rcases hne with hl | hr
      · exact hl h
      · exact hr h2
    · simp at h
  · intro h
    simp only [mergeChunks]
    rw [foldl_merge_all_empty sep cs co segs h]
    simp

/-! ### Claim C4: chunk-size bounds -/

lemma length_le_maxLen : ∀ (l : List (List Char)) (s : List Char),
    s ∈ l → s.length ≤ maxLen l := by
  intro l
  induction l with
  | nil => intro s hs; cases hs
  | cons a t ih =>
    intro s hs
    rcases List.mem_cons.mp hs with rfl | hmem
    · exact le_max_left _ _
    · exact le_trans (ih s hmem) (le_max_right _ _)

lemma mergeStep_bound (sep : List Char) (cs co : Int) (B : Nat)
    (st : List (List Char) × List Char) (s : List Char)
    (hB1 : toSizeT cs ≤ B) (hB2 : toSizeT co + sep.length + s.length ≤ B)
    (hs : s.length ≤ B)
    (hch : ∀ c ∈ st.1, c.length ≤ B) (hcur : st.2.length ≤ B) :
    (∀ c ∈ (mergeStep sep cs co st s).1, c.length ≤ B) ∧
    (mergeStep sep cs co st s).2.length ≤ B := by
  have hmem : ∀ c ∈ st.1 ++ [st.2], c.length ≤ B := by
    intro c hc
    rcases List.mem_append.mp hc with hl | hr
    · exact hch c hl
    · simp only [List.mem_singleton] at hr
      subst hr
      exact hcur
  rcases mergeStep_cases sep cs co st s with ⟨h1, ⟨_, heq⟩ | ⟨h2, heq⟩⟩ |
      ⟨_, heq | ⟨pre, _, hpre, heq⟩⟩
  · rw [heq]
    exact ⟨hch, hs⟩
  · rw [heq]
    refine ⟨hch, ?_⟩
    push_neg at h1
    have hle := h1 h2
    simp only [List.length_append]
    omega
  · rw [heq]
    exact ⟨hmem, hs⟩
  · rw [heq]
    refine ⟨hmem, ?_⟩
    simp only [List.length_append, hpre]
    omega

lemma foldl_merge_bound (sep : List Char) (cs co : Int) (B : Nat)
    (hB1 : toSizeT cs ≤ B) :
    ∀ (segs : List (List Char)) (st : List (List Char) × List Char),
    (∀ s ∈ segs, toSizeT co + sep.length + s.length ≤ B ∧ s.length ≤ B) →
    (∀ c ∈ st.1, c.length ≤ B) → st.2.length ≤ B →
    (∀ c ∈ (segs.foldl (mergeStep sep cs co) st).1, c.length ≤ B) ∧
    (segs.foldl (mergeStep sep cs co) st).2.length ≤ B := by
  intro segs
  induction segs with
  | nil => intro st _ hch hcur; exact ⟨hch, hcur⟩
  | cons a t ih =>
    intro st hseg hch hcur
    rw [List.foldl_cons]
    have ha := hseg a (List.mem_cons_self ..)
    have hstep := mergeStep_bound sep cs co B st a hB1 ha.1 ha.2 hch hcur
    exact ih (mergeStep sep cs co st a)
      (fun s hs => hseg s (List.mem_cons_of_mem _ hs)) hstep.1 hstep.2

/-- C4 counterexample: with the valid config `chunk_size = 10`,
`chunk_overlap = 1`, the text `"aaaaaaaaaaa\n\nbbbbbbbbbbb"` (two
11-character paragraphs) produces two chunks of lengths 11 and 14, both
exceeding `chunk_size` — the claim's "at most one" bound fails; moreover,
with `chunk_overlap = 5` and the text `"abcdefgh\n\nijklmnopq"`, every
segment has length at most 10, yet the merge emits the chunk
`"defgh\n\nijklmnopq"` of length 16 > 10 (an overlap carry plus separator
plus an in-bounds segment), so an oversized chunk need not contain a
single oversized segment. -/
theorem C4_counterexample :
    (splitText (List.replicate 11 'a' ++ ['\n', '\n'] ++ List.replicate 11 'b') 10 1 =
        some [List.replicate 11 'a', 'a' :: '\n' :: '\n' :: List.replicate 11 'b'] ∧
      10 < (List.replicate 11 'a').length ∧
      10 < ('a' :: '\n' :: '\n' :: List.replicate 11 'b').length) ∧
    (cppSplits ['\n', '\n']
        ['a', 'b', 'c', 'd', 'e', 'f', 'g', 'h', '\n', '\n', 'i', 'j', 'k', 'l', 'm', 'n', 'o', 'p', 'q'] =
        [['a', 'b', 'c', 'd', 'e', 'f', 'g', 'h'], ['i', 'j', 'k', 'l', 'm', 'n', 'o', 'p', 'q']] ∧
      splitText
        ['a', 'b', 'c', 'd', 'e', 'f', 'g', 'h', '\n', '\n', 'i', 'j', 'k', 'l', 'm', 'n', 'o', 'p', 'q']
        10 5 =
        some [['a', 'b', 'c', 'd', 'e', 'f', 'g', 'h'],
          ['d', 'e', 'f', 'g', 'h', '\n', '\n', 'i', 'j', 'k', 'l', 'm', 'n', 'o', 'p', 'q']] ∧
      10 < (['d', 'e', 'f', 'g', 'h', '\n', '\n', 'i', 'j', 'k', 'l', 'm', 'n', 'o', 'p', 'q'] : List Char).length) := by
  decide

/-- C4 amended: several chunks may exceed `chunk_size`, and an oversized
chunk need not consist of a single oversized segment (it can be an
overlap carry plus separator plus a segment); what holds is the bound
that every chunk emitted by the greedy merge has length at most
`max(chunk_size, chunk_overlap + len(separator) + longest segment length)`
(sizes taken after the `size_t` cast). -/
theorem C4_chunk_bound (sep : List Char) (cs co : Int) (segs : List (List Char))
    (c : List Char) (hc : c ∈ mergeChunks sep cs co segs) :
    c.length ≤ max (toSizeT cs) (toSizeT co + sep.length + maxLen segs) := by
  have hfold := foldl_merge_bound sep cs co
      (max (toSizeT cs) (toSizeT co + sep.length + maxLen segs))
      (le_max_left _ _) segs ([], [])
      (fun s hs => by
        have := length_le_maxLen segs s hs
        constructor
        · exact le_trans (by omega) (le_max_right (toSizeT cs) _)
        · exact le_trans (by omega) (le_max_right (toSizeT cs) _))
      (by intro c hc; cases hc) (by simp)
  simp only [mergeChunks] at hc
  split_ifs at hc with h2
  · exact hfold.1 c hc
  · rcases List.mem_append.mp hc with hl | hr
    · exact hfold.1 c hl
    · simp only [List.mem_singleton] at hr
      subst hr
      exact hfold.2

/-- Witness for the amended C4 at one concrete segment list. -/
theorem C4_chunk_bound_witness :
    (['a', 'b'] : List Char).length ≤
      max (toSizeT 10) (toSizeT 1 + (['\n'] : List Char).length + maxLen [['a', 'b']]) :=
  C4_chunk_bound ['\n'] 10 1 [['a', 'b']] ['a', 'b'] (by decide)

/-! ### The word-length estimator -/

lemma countWordsAux_eq_zero (l : List Char) (h : ∀ c ∈ l, isspaceChar c = true) :
    ∀ b, countWordsAux b l = 0 := by
  induction l with
  | nil => intro b; rfl
  | cons c rest ih =>
    intro b
    have hc : isspaceChar c = true := h c (List.mem_cons_self ..)
    simp only [countWordsAux, hc, if_true]
    exact ih (fun d hd => h d (List.mem_cons_of_mem _ hd)) false

lemma avgWordLength_all_space (text : List Char)
    (h : ∀ c ∈ text.take 500, isspaceChar c = true) : avgWordLength text = 6 := by
  unfold avgWordLength
  simp [countWordsAux_eq_zero _ h false]

lemma countWordsAux_le_length (l : List Char) : ∀ b, countWordsAux b l ≤ l.length := by
  induction l with
  | nil => intro b; simp [countWordsAux]
  | cons c rest ih =>
    intro b
    unfold countWordsAux
    split
    · have := ih false; simp only [List.length_cons]; omega
    · split
      · have := ih true; simp only [List.length_cons]; omega
      · have := ih true; simp only [List.length_cons]; omega

lemma two_le_avgWordLength (text : List Char) : 2 ≤ avgWordLength text := by
  unfold avgWordLength
  by_cases h : 0 < countWordsAux false (text.take 500)
  · rw [if_pos h]
    have h2 : countWordsAux false (text.take 500) ≤ (text.take 500).length :=
      countWordsAux_le_length _ false
    have h3 : 1 ≤ (text.take 500).length / countWordsAux false (text.take 500) :=
      (Nat.one_le_div_iff h).mpr h2
    have h4 : (1 : Int) ≤ (((text.take 500).length / countWordsAux false (text.take 500) : Nat) : Int) := by
      exact_mod_cast h3
    omega
  · rw [if_neg h]; norm_num

/-! ### Claim C6: short-circuit for small text -/

/-- C6: for every text with `len(text) <= chunk_size` and every valid
`chunk_overlap`, `split_text` returns exactly one chunk equal to the
input text. -/
theorem C6_short_circuit (text : List Char) (cs co : Int)
    (h1 : 0 < co) (h2 : co < cs) (h3 : cs < (U64 : Int))
    (h4 : text.length ≤ cs.toNat) :
    splitText text cs co = some [text] := by
  unfold splitText
  rw [if_pos]
  rw [toSizeT_eq_toNat (by omega) h3]
  exact h4

/-- Witness for C6 at `text = "hi"`, `chunk_size = 10`, `chunk_overlap = 2`. -/
theorem C6_short_circuit_witness :
    splitText ['h', 'i'] 10 2 = some [['h', 'i']] :=
  C6_short_circuit ['h', 'i'] 10 2 (by decide) (by decide) (by decide) (by decide)

/-! ### Claim C8: the word estimator default -/

/-- C8: for every text whose 500-character sample prefix contains only
whitespace (or is empty), `avg_word_length` resolves to the default 6 and
`split_text_with_word_count(text, 10, 2)` returns exactly the same chunks
as `split_text(text, 60, 12)`. -/
theorem C8_word_default (text : List Char)
    (h : ∀ c ∈ text.take 500, isspaceChar c = true) :
    avgWordLength text = 6 ∧
    splitTextWithWordCount text 10 2 = splitText text 60 12 := by
  have ha := avgWordLength_all_space text h
  refine ⟨ha, ?_⟩
  unfold splitTextWithWordCount
  rw [ha]
  norm_num

/-- Witness for C8 at an all-whitespace text. -/
theorem C8_word_default_witness :
    avgWordLength [' ', ' ', ' '] = 6 ∧
    splitTextWithWordCount [' ', ' ', ' '] 10 2 = splitText [' ', ' ', ' '] 60 12 :=
  C8_word_default [' ', ' ', ' '] (by decide)

/-! ### Claim C9: the wrapper preserves the config invariant -/

/-- C9: `avg_word_length` is always at least 2 (sample length divided by a
word count that never exceeds it, plus one; or the default 6), so whenever
`0 < chunk_overlap_words < chunk_size_words` the derived character-unit
parameters satisfy `0 < chunk_overlap_chars < chunk_size_chars`. -/
theorem C9_word_invariant (text : List Char) (csw cow : Int)
    (h1 : 0 < cow) (h2 : cow < csw) :
    2 ≤ avgWordLength text ∧
    0 < cow * avgWordLength text ∧
    cow * avgWordLength text < csw * avgWordLength text := by
  have ha := two_le_avgWordLength text
  exact ⟨ha, mul_pos h1 (by omega), mul_lt_mul_of_pos_right h2 (by omega)⟩

/-- Witness for C9 at `text = "hi there"`, word params `(2, 1)`. -/
theorem C9_word_invariant_witness :
    2 ≤ avgWordLength ['h', 'i', ' ', 'a'] ∧
    0 < 1 * avgWordLength ['h', 'i', ' ', 'a'] ∧
    1 * avgWordLength ['h', 'i', ' ', 'a'] < 2 * avgWordLength ['h', 'i', ' ', 'a'] :=
  C9_word_invariant ['h', 'i', ' ', 'a'] 2 1 (by decide) (by decide)

/-! ### The fixed-width fallback splitter -/

lemma lt_U64_int {n : Int} (h : n ≤ 2147483647) : n < (U64 : Int) := by
  unfold U64
  omega

lemma fallbackLoop_of_ge (text : List Char) (csize stride fuel i : Nat)
    (h : text.length ≤ i) : fallbackLoop text csize stride fuel i = some [] := by
  cases fuel <;> simp [fallbackLoop, Nat.not_lt.mpr h]

lemma fallbackLoop_stride_zero (text : List Char) (csize : Nat)
    (hb : text.length ≤ 9223372036854775808) :
    ∀ fuel i, i < text.length → fallbackLoop text csize 0 fuel i = none := by
  intro fuel
  induction fuel with
  | zero => intro i hi; simp [fallbackLoop, hi]
  | succ f ih =>
    intro i hi
    have hmod : (i + 0) % U64 = i := by
      rw [Nat.add_zero]
      exact Nat.mod_eq_of_lt (by unfold U64; omega)
    simp only [fallbackLoop, if_pos hi]
    rw [hmod, ih i hi]
    rfl

lemma fallbackLoop_isSome (text : List Char) (csize stride : Nat)
    (hstr : 0 < stride) (hs : stride ≤ 9223372036854775808)
    (hb : text.length ≤ 9223372036854775808) :
    ∀ fuel i, text.length ≤ i + fuel * stride →
    (fallbackLoop text csize stride fuel i).isSome := by
  intro fuel
  induction fuel with
  | zero =>
    intro i h
    simp only [Nat.zero_mul, Nat.add_zero] at h
    rw [fallbackLoop_of_ge text csize stride 0 i h]
    rfl
  | succ f ih =>
    intro i h
    by_cases hi : i < text.length
    · have hmod : (i + stride) % U64 = i + stride :=
        Nat.mod_eq_of_lt (by unfold U64; omega)
      simp only [fallbackLoop, if_pos hi]
      rw [hmod]
      have hnext : text.length ≤ (i + stride) + f * stride := by
        rw [Nat.succ_mul] at h
        omega
      obtain ⟨l, hl⟩ := Option.isSome_iff_exists.mp (ih (i + stride) hnext)
      rw [hl]
      rfl
    · rw [fallbackLoop_of_ge text csize stride (f + 1) i (Nat.le_of_not_lt hi)]
      rfl

lemma fb_piece_eq (text : List Char) (csize i : Nat)
    (hcs : csize ≤ 9223372036854775808) (hi : i < text.length)
    (hb : text.length ≤ 9223372036854775808) :
    (if i ≤ min ((i + csize) % U64) text.length then
       (text.drop i).take (min ((i + csize) % U64) text.length - i)
     else text.drop i) = (text.drop i).take csize := by
  have hmod : (i + csize) % U64 = i + csize :=
    Nat.mod_eq_of_lt (by unfold U64; omega)
  rw [hmod]
  have hle : i ≤ min (i + csize) text.length :=
    le_min (Nat.le_add_right _ _) (le_of_lt hi)
  rw [if_pos hle]
  rw [List.take_eq_take]
  rw [List.length_drop]
  omega

lemma fallbackLoop_tail_nil (text : List Char) (csize stride ov : Nat)
    (hstr : 0 < stride) (hs : stride ≤ 9223372036854775808)
    (hb : text.length ≤ 9223372036854775808) :
    ∀ fuel i l, text.length ≤ i + ov →
    fallbackLoop text csize stride fuel i = some l →
    (l.map (List.drop ov)).flatten = [] := by
  intro fuel
  induction fuel with
  | zero =>
    intro i l hle heq
    simp only [fallbackLoop] at heq
    split_ifs at heq
    cases heq
    rfl
  | succ f ih =>
    intro i l hle heq
    by_cases hi : i < text.length
    · simp only [fallbackLoop, if_pos hi] at heq
      have hmod : (i + stride) % U64 = i + stride :=
        Nat.mod_eq_of_lt (by unfold U64; omega)
      rw [hmod] at heq
      obtain ⟨l', hrec, hl⟩ := Option.map_eq_some'.mp heq
      subst hl
      simp only [List.map_cons, List.flatten_cons]
      have hpiece :
          (if i ≤ min ((i + csize) % U64) text.length then
             (text.drop i).take (min ((i + csize) % U64) text.length - i)
           else text.drop i).drop ov = [] := by
        apply List.drop_eq_nil_of_le
        have hlb : (if i ≤ min ((i + csize) % U64) text.length then
             (text.drop i).take (min ((i + csize) % U64) text.length - i)
           else text.drop i).length ≤ text.length - i := by
          split_ifs
          · rw [List.length_take, List.length_drop]
            omega
          · rw [List.length_drop]
        omega
      rw [hpiece, List.nil_append]
      exact ih (i + stride) l' (by omega) hrec
    · rw [fallbackLoop_of_ge text csize stride (f + 1) i (Nat.le_of_not_lt hi)] at heq
      cases heq
      rfl

lemma fallbackLoop_spec (text : List Char) (csize stride ov : Nat)
    (hstr : 0 < stride) (hcs : csize = stride + ov)
    (hb1 : csize ≤ 9223372036854775808) (hb2 : stride ≤ 9223372036854775808)
    (hb3 : text.length ≤ 9223372036854775808) :
    ∀ fuel i, i < text.length → text.length ≤ i + fuel * stride →
    ∃ l, fallbackLoop text csize stride fuel i =
        some ((text.drop i).take csize :: l) ∧
      (text.drop i).take csize ++ (l.map (List.drop ov)).flatten = text.drop i := by
  intro fuel
  induction fuel with
  | zero =>
    intro i hi h
    exact absurd hi (by omega)
  | succ f ih =>
    intro i hi h
    have hmod : (i + stride) % U64 = i + stride :=
      Nat.mod_eq_of_lt (by unfold U64; omega)
    simp only [fallbackLoop, if_pos hi]
    rw [fb_piece_eq text csize i hb1 hi hb3, hmod]
    by_cases hnext : i + stride < text.length
    · have hle : text.length ≤ (i + stride) + f * stride := by
        rw [Nat.succ_mul] at h
        omega
      obtain ⟨l', heq, hjoin⟩ := ih (i + stride) hnext hle
      rw [heq]
      refine ⟨(text.drop (i + stride)).take csize :: l', rfl, ?_⟩
      simp only [List.map_cons, List.flatten_cons]
      by_cases hcase : text.length ≤ i + csize
      · have h1 : (text.drop i).take csize = text.drop i :=
          List.take_of_length_le (by rw [List.length_drop]; omega)
        have h2 : (((text.drop (i + stride)).take csize :: l').map
            (List.drop ov)).flatten = [] :=
          fallbackLoop_tail_nil text csize stride ov hstr hb2 hb3 f (i + stride)
            ((text.drop (i + stride)).take csize :: l') (by omega) heq
        simp only [List.map_cons, List.flatten_cons] at h2
        rw [h1, h2, List.append_nil]
      · push_neg at hcase
        have hta : (text.drop i).take csize =
            (text.drop i).take stride ++ (text.drop (i + stride)).take ov := by
          rw [hcs, List.take_add]
          congr 1
          rw [List.drop_drop]
        have htb : (text.drop (i + stride)).take ov =
            ((text.drop (i + stride)).take csize).take ov := by
          rw [List.take_take, min_eq_left (by omega)]
        calc (text.drop i).take csize ++
              (((text.drop (i + stride)).take csize).drop ov ++
                (l'.map (List.drop ov)).flatten)
            = ((text.drop i).take stride ++
                ((text.drop (i + stride)).take csize).take ov) ++
              (((text.drop (i + stride)).take csize).drop ov ++
                (l'.map (List.drop ov)).flatten) := by
              rw [← htb, ← hta]
          _ = (text.drop i).take stride ++
              (((text.drop (i + stride)).take csize).take ov ++
                (((text.drop (i + stride)).take csize).drop ov ++
                  (l'.map (List.drop ov)).flatten)) := by
              simp [List.append_assoc]
          _ = (text.drop i).take stride ++
              ((text.drop (i + stride)).take csize ++
                (l'.map (List.drop ov)).flatten) := by
              congr 1
              rw [← List.append_assoc, List.take_append_drop]
          _ = (text.drop i).take stride ++ text.drop (i + stride) := by
              rw [hjoin]
          _ = (text.drop i).take stride ++ (text.drop i).drop stride := by
              rw [List.drop_drop]
          _ = text.drop i := List.take_append_drop _ _
    · rw [fallbackLoop_of_ge text csize stride f (i + stride)
        (Nat.le_of_not_lt hnext)]
      refine ⟨[], rfl, ?_⟩
      simp only [List.map_nil, List.flatten_nil, List.append_nil]
      exact List.take_of_length_le (by rw [List.length_drop]; omega)

/-! ### Reaching the fallback tier -/

lemma findSub_head_newline (sfx : List Char) :
    ∀ t : List Char, '\n' ∉ t → findSub ('\n' :: sfx) t = none := by
  intro t
  induction t with
  | nil => intro _; simp [findSub]
  | cons c rest ih =>
    intro h
    simp only [List.mem_cons, not_or] at h
    obtain ⟨h1, h2⟩ := h
    have hsw : startsWith ('\n' :: sfx) (c :: rest) = false := by
      simp only [startsWith, Bool.and_eq_false_iff]
      left
      simp only [beq_eq_false_iff_ne, ne_eq]
      exact h1
    simp only [findSub, hsw, Bool.false_eq_true, if_false]
    rw [ih h2]
    rfl

lemma splitAuxF_of_none (sep t : List Char) (h : findSub sep t = none) :
    ∀ fuel, splitAuxF sep fuel t = ([], t) := by
  intro fuel
  cases fuel
  · rfl
  · simp [splitAuxF, h]

lemma cppSplits_eq_nil (sep text : List Char) (h : findSub sep text = none) :
    cppSplits sep text = [] := by
  rw [cppSplits_cases, splitAuxF_of_none sep text h]
  simp

lemma splitText_fallback (text : List Char) (cs co : Int)
    (hnl : '\n' ∉ text) (hgt : toSizeT cs < text.length) :
    splitText text cs co =
      fallbackLoop text (toSizeT cs) (toSizeT (cs - co)) (text.length + 1) 0 := by
  have h1 : findSub ['\n'] text = none := findSub_head_newline [] text hnl
  have h2 : findSub ['\n', '\n'] text = none := findSub_head_newline ['\n'] text hnl
  have hp : tierChunks ['\n', '\n'] cs co text = [] := by
    simp [tierChunks, cppSplits_eq_nil _ _ h2]
  have hl : tierChunks ['\n'] cs co text = [] := by
    simp [tierChunks, cppSplits_eq_nil _ _ h1]
  unfold splitText
  rw [if_neg (by omega)]
  rw [hp, hl]
  simp

/-! ### Claim C7: termination of the fallback loop -/

/-- C7: under the precondition that the stride `chunk_size - chunk_overlap`
is positive, the fixed-width fallback loop terminates for every input
text (with the fuel `text.length + 1` used by `splitText`, the loop
completes and yields a result). -/
theorem C7_fallback_terminates (text : List Char) (csize stride : Nat)
    (h1 : 0 < stride) (h2 : stride ≤ 9223372036854775808)
    (h3 : text.length ≤ 9223372036854775808) :
    (fallbackLoop text csize stride (text.length + 1) 0).isSome = true := by
  apply fallbackLoop_isSome text csize stride h1 h2 h3
  have := Nat.le_mul_of_pos_right (text.length + 1) h1
  omega

/-- Witness for C7 at a 3-character text with `chunk_size = 2`, stride 1. -/
theorem C7_fallback_terminates_witness :
    (fallbackLoop ['a', 'b', 'c'] 2 1 (['a', 'b', 'c'].length + 1) 0).isSome = true :=
  C7_fallback_terminates ['a', 'b', 'c'] 2 1 (by decide) (by decide) (by decide)

/-! ### Claim C1: no ConfigError is ever raised -/

/-- C1: contrary to the claim, `split_text` performs no validation at all.
For any text with no line breaks and more than 100 characters, the call
with `chunk_size = 100, chunk_overlap = 100` reaches the fallback loop
with stride 0 and never terminates (the model returns `none`: the loop
completes under no fuel bound; the real code also divides by zero when
computing the `reserve` capacity), and the call with `chunk_overlap = 150`
wraps the stride to `2^64 - 50`, returning only the first 100 characters
and silently dropping the rest — in neither case is any error raised. -/
theorem C1_no_config_error (text : List Char)
    (hnl : '\n' ∉ text) (hlen : 100 < text.length)
    (hb : text.length ≤ 9223372036854775808) :
    splitText text 100 100 = none ∧
    splitText text 100 150 = some [text.take 100] := by
  have h100 : toSizeT 100 = 100 := by decide
  constructor
  · rw [splitText_fallback text 100 100 hnl (by rw [h100]; omega)]
    rw [show toSizeT (100 - 100) = 0 by decide]
    exact fallbackLoop_stride_zero text (toSizeT 100) hb (text.length + 1) 0 (by omega)
  · rw [splitText_fallback text 100 150 hnl (by rw [h100]; omega)]
    rw [show toSizeT (100 - 150) = 18446744073709551566 by decide, h100]
    simp only [fallbackLoop, if_pos (show (0 : Nat) < text.length by omega)]
    have he : min ((0 + 100) % U64) text.length = 100 := by
      rw [Nat.zero_add, Nat.mod_eq_of_lt (by unfold U64; omega)]
      exact min_eq_left (by omega)
    rw [he]
    rw [if_pos (by omega : (0 : Nat) ≤ 100)]
    have hmod : (0 + 18446744073709551566) % U64 = 18446744073709551566 := by
      rw [Nat.zero_add]
      exact Nat.mod_eq_of_lt (by unfold U64; omega)
    rw [hmod]
    rw [fallbackLoop_of_ge text 100 18446744073709551566 text.length
      18446744073709551566 (by omega)]
    simp

/-- Witness for C1 at a text of 101 letters `a`. -/
theorem C1_no_config_error_witness :
    splitText (List.replicate 101 'a') 100 100 = none ∧
    splitText (List.replicate 101 'a') 100 150 =
      some [(List.replicate 101 'a').take 100] :=
  C1_no_config_error (List.replicate 101 'a') (by decide) (by decide) (by decide)

/-! ### Claim C3: fallback-tier coverage -/

/-- C3: for every text with no line-break separators and every config with
`0 < chunk_overlap < chunk_size < len(text)`, `split_text` produces the
fallback-tier chunks, and concatenating them after removing from every
chunk after the first its leading `chunk_overlap` characters reconstructs
the original text exactly. -/
theorem C3_fallback_coverage (text : List Char) (cs co : Int)
    (h1 : 0 < co) (h2 : co < cs) (h3 : cs ≤ 2147483647)
    (h4 : cs.toNat < text.length) (h5 : text.length ≤ 9223372036854775808)
    (hnl : '\n' ∉ text) :
    ∃ l, splitText text cs co = some (text.take cs.toNat :: l) ∧
      text.take cs.toNat ++ (l.map (List.drop co.toNat)).flatten = text := by
  have hcs : toSizeT cs = cs.toNat :=
    toSizeT_eq_toNat (by omega) (lt_U64_int h3)
  have hstr : toSizeT (cs - co) = (cs - co).toNat :=
    toSizeT_eq_toNat (by omega) (lt_U64_int (by omega))
  rw [splitText_fallback text cs co hnl (by rw [hcs]; omega)]
  rw [hcs, hstr]
  have hpos : 0 < (cs - co).toNat := by omega
  obtain ⟨l, heq, hjoin⟩ := fallbackLoop_spec text cs.toNat (cs - co).toNat co.toNat
    hpos (by omega) (by omega) (by omega) h5
    (text.length + 1) 0 (by omega)
    (by
      have := Nat.le_mul_of_pos_right (text.length + 1) hpos
      omega)
  rw [List.drop_zero] at heq hjoin
  exact ⟨l, heq, hjoin⟩

/-- Witness for C3 at `text = "aaaaa"`, `chunk_size = 3`,
`chunk_overlap = 1`. -/
theorem C3_fallback_coverage_witness :
    ∃ l, splitText (List.replicate 5 'a') 3 1 =
        some ((List.replicate 5 'a').take (3 : Int).toNat :: l) ∧
      (List.replicate 5 'a').take (3 : Int).toNat ++
        (l.map (List.drop (1 : Int).toNat)).flatten = List.replicate 5 'a' :=
  C3_fallback_coverage (List.replicate 5 'a') 3 1 (by decide) (by decide)
    (by decide) (by decide) (by decide) (by decide)

/-! ### Claim C10: the result is never empty -/

/-- C10: for every text and every valid config
(`0 < chunk_overlap < chunk_size`), `split_text` returns a non-empty
sequence of chunks; in particular, for the empty text it returns exactly
one chunk equal to the empty string. -/
theorem C10_nonempty (text : List Char) (cs co : Int)
    (h1 : 0 < co) (h2 : co < cs) (h3 : cs ≤ 2147483647)
    (h5 : text.length ≤ 9223372036854775808) :
    (∃ l, splitText text cs co = some l ∧ l ≠ []) ∧
    splitText ([] : List Char) cs co = some [[]] := by
  have hstr : toSizeT (cs - co) = (cs - co).toNat :=
    toSizeT_eq_toNat (by omega) (lt_U64_int (by omega))
  constructor
  · by_cases hshort : text.length ≤ toSizeT cs
    · refine ⟨[text], ?_, by simp⟩
      unfold splitText
      rw [if_pos hshort]
    · unfold splitText
      rw [if_neg hshort]
      by_cases hp : tierChunks ['\n', '\n'] cs co text ≠ []
      · rw [if_pos hp]
        exact ⟨_, rfl, hp⟩
      · rw [if_neg hp]
        by_cases hq : tierChunks ['\n'] cs co text ≠ []
        · rw [if_pos hq]
          exact ⟨_, rfl, hq⟩
        · rw [if_neg hq]
          have hpos : 0 < toSizeT (cs - co) := by omega
          have hlen : (0 : Nat) < text.length := by omega
          simp only [fallbackLoop, if_pos hlen]
          have hrec := fallbackLoop_isSome text (toSizeT cs) (toSizeT (cs - co))
            hpos (by omega) h5 text.length ((0 + toSizeT (cs - co)) % U64)
            (by
              have hm : (0 + toSizeT (cs - co)) % U64 ≤ U64 := Nat.le_of_lt (Nat.mod_lt _ (by unfold U64; omega))
              have := Nat.le_mul_of_pos_right text.length hpos
              omega)
          obtain ⟨l', hl'⟩ := Option.isSome_iff_exists.mp hrec
          rw [hl']
          exact ⟨_ :: l', rfl, by simp⟩
  · unfold splitText
    rw [if_pos (by simp : ([] : List Char).length ≤ toSizeT cs)]

/-- Witness for C10 at `text = "bbbb"`, `chunk_size = 2`,
`chunk_overlap = 1`. -/
theorem C10_nonempty_witness :
    (∃ l, splitText (List.replicate 4 'b') 2 1 = some l ∧ l ≠ []) ∧
    splitText ([] : List Char) 2 1 = some [[]] :=
  C10_nonempty (List.replicate 4 'b') 2 1 (by decide) (by decide) (by decide)
    (by decide)

end TextChunker
